import Mathlib

/-!
Verification of the LineForge core (`normalize.py`): a shallow embedding of
the content transformer, binary classifier, per-file processor and parallel
coordinator, together with theorems settling the specification claims.

Text is modelled as `List Char` (Python `str`), raw bytes as `List Nat`.
-/

namespace LineForge

/-! ## Character classes

`isPySpace` is the character class matched by `\s` in a Python 3 `re` pattern
applied to a `str`: exactly the characters for which `str.isspace()` holds
(`Py_UNICODE_ISSPACE`). -/

def isPySpace (c : Char) : Bool :=
  c = ' ' || c = '\t' || c = '\n' || c = '\r' || c = '\x0b' || c = '\x0c' ||
  c = '\x1c' || c = '\x1d' || c = '\x1e' || c = '\x1f' ||
  c = '\x85' || c = '\xa0' || c = '\u1680' ||
  (('\u2000' ≤ c) && (c ≤ '\u200a')) ||
  c = '\u2028' || c = '\u2029' || c = '\u202f' || c = '\u205f' || c = '\u3000'

/-! ## String-replacement primitives

Each models one Python `str.replace` call from `process_file`
(left-to-right, non-overlapping). -/

/-- `content.replace("\r\n", "\n")`. -/
def replCRLF : List Char → List Char
  | [] => []
  | [c] => [c]
  | c :: d :: rest =>
    if c = '\r' && d = '\n' then '\n' :: replCRLF rest
    else c :: replCRLF (d :: rest)

/-- `content.replace("\r", "\n")`. -/
def replCR (l : List Char) : List Char :=
  l.map (fun c => if c = '\r' then '\n' else c)

/-- `content.replace("\n", "\r\n")`. -/
def replLF : List Char → List Char
  | [] => []
  | c :: rest => if c = '\n' then '\r' :: '\n' :: replLF rest else c :: replLF rest

/-- `content.replace("\t", "    ")` (tab to four spaces). -/
def replTab : List Char → List Char
  | [] => []
  | c :: rest =>
    if c = '\t' then ' ' :: ' ' :: ' ' :: ' ' :: replTab rest else c :: replTab rest

/-! ## `re.sub(r"\n\s*\n", "\n\n", content)`

The regex matches a `'\n'`, then a greedy run of whitespace, then a final
`'\n'`; with greedy backtracking the text consumed after the first `'\n'` is
the longest all-whitespace prefix of the remainder that ends with `'\n'`.
`wsToLastNL` computes the length of that prefix (`none` when there is no
match at this position).  `re.sub` scans left to right and resumes after
each replacement. -/

def wsToLastNL : List Char → Option Nat
  | [] => none
  | c :: rest =>
    if isPySpace c then
      match wsToLastNL rest with
      | some n => some (n + 1)
      | none => if c = '\n' then some 1 else none
    else none

/-- One `re.sub(r"\n\s*\n", "\n\n", ·)` pass, with explicit fuel so that the
definition is structurally recursive (any `fuel ≥ l.length` is enough, since
each replacement consumes at least two characters and scanning otherwise
advances by one). -/
def subBlankAux : Nat → List Char → List Char
  | _, [] => []
  | 0, l => l
  | fuel + 1, c :: rest =>
    if c = '\n' then
      match wsToLastNL rest with
      | some n => '\n' :: '\n' :: subBlankAux fuel (rest.drop n)
      | none => '\n' :: subBlankAux fuel rest
    else c :: subBlankAux fuel rest

def subBlank (l : List Char) : List Char := subBlankAux l.length l

/-! ## `re.sub(r"[ \t]+$", "", content, flags=re.MULTILINE)`

In MULTILINE mode `$` matches just before every `'\n'` and at the end of the
string, so the sub deletes every run of spaces/tabs that is immediately
followed by `'\n'` or by the end of the string. -/

/-- `l` consists of spaces/tabs up to the next `'\n'` or the end. -/
def runToNL : List Char → Bool
  | [] => true
  | c :: rest =>
    if c = '\n' then true
    else if c = ' ' || c = '\t' then runToNL rest
    else false

def stripTrail : List Char → List Char
  | [] => []
  | c :: rest =>
    if (c = ' ' || c = '\t') && runToNL rest then stripTrail rest
    else c :: stripTrail rest

/-! ## The content transformer (`process_file`, lines 198–224) -/

inductive Fmt
  | crlf
  | lf
  deriving DecidableEq

structure Cfg where
  fmt : Fmt
  removeWhitespace : Bool
  preserveTabs : Bool
  deriving DecidableEq

/-- Line-ending normalization (lines 213–224): canonicalize `\r\n` and lone
`\r` to `\n`; for CRLF target then expand every `\n` to `\r\n`. -/
def normalizeNewlines (fmt : Fmt) (l : List Char) : List Char :=
  match fmt with
  | .crlf => replLF (replCR (replCRLF l))
  | .lf => replCR (replCRLF l)

/-- The full pure content transformation of `process_file` (lines 198–224):
optional whitespace handling, then optional tab expansion, then line-ending
normalization, in the source's order. -/
def transform (cfg : Cfg) (content : List Char) : List Char :=
  let m1 := if cfg.removeWhitespace then stripTrail (subBlank content) else content
  let m2 := if cfg.preserveTabs then m1 else replTab m1
  normalizeNewlines cfg.fmt m2

/-! ## Python exceptions

Only the exception classes the modelled I/O primitives can raise.  All of
them are subclasses of `Exception` (none is a bare `BaseException`), which
is what `exnIsException` records and what the blanket `except Exception`
handlers rely on. -/

inductive PyExn
  | osError
  | permissionError
  | unicodeDecodeError
  deriving DecidableEq

/-- Whether `except Exception` catches this exception class. -/
def exnIsException : PyExn → Bool
  | .osError => true
  | .permissionError => true
  | .unicodeDecodeError => true

/-- Whether `except PermissionError` catches this exception class
(`PermissionError` is a subclass of `OSError`, and our `osError`
constructor stands for the non-permission `OSError`s). -/
def exnIsPermissionError : PyExn → Bool
  | .permissionError => true
  | _ => false

instance : DecidableEq (Except PyExn Bool) := fun a b =>
  match a, b with
  | .ok x, .ok y => if h : x = y then .isTrue (by rw [h]) else .isFalse (by simp [h])
  | .ok _, .error _ => .isFalse (by simp)
  | .error _, .ok _ => .isFalse (by simp)
  | .error x, .error y => if h : x = y then .isTrue (by rw [h]) else .isFalse (by simp [h])

/-! ## Binary classifier (`is_binary_file`, lines 38–128) -/

/-- The extension deny-list (lines 51–91). -/
def binaryExtensions : List String :=
  [".bin", ".exe", ".dll", ".so", ".dylib", ".obj", ".o", ".a", ".lib",
   ".png", ".jpg", ".jpeg", ".gif", ".bmp", ".ico", ".tif", ".tiff",
   ".zip", ".tar", ".gz", ".bz2", ".xz", ".7z", ".rar",
   ".pdf", ".doc", ".docx", ".xls", ".xlsx", ".ppt", ".pptx",
   ".class", ".pyc", ".pyo", ".pyd", ".mp3", ".mp4", ".avi", ".mov"]

/-- The magic-number signatures checked with `chunk.startswith` (line 111):
`\x89PNG`, `GIF8`, `BM`, `\xff\xd8\xff`, `%PDF`, `PK\x03\x04`. -/
def magicSignatures : List (List Nat) :=
  [[0x89, 0x50, 0x4e, 0x47], [0x47, 0x49, 0x46, 0x38], [0x42, 0x4d],
   [0xff, 0xd8, 0xff], [0x25, 0x50, 0x44, 0x46], [0x50, 0x4b, 0x03, 0x04]]

/-- The `text_characters` byte set (line 118):
`{7, 8, 9, 10, 12, 13, 27} | set(range(0x20, 0x100)) - {0x7F}`. -/
def isTextByte (b : Nat) : Bool :=
  b = 7 || b = 8 || b = 9 || b = 10 || b = 12 || b = 13 || b = 27 ||
  (0x20 ≤ b && b ≤ 0xff && b ≠ 0x7f)

/-- `float(len(non_text)) / len(chunk) > 0.2` (line 122).  For
`0 < b ≤ 8192` and `a ≤ b` the double-precision comparison agrees exactly
with the rational comparison `a/b > 1/5`, i.e. `5*a > b`: when `5*a > b`
the exact ratio exceeds `1/5` by at least `1/(5*8192)`, far more than the
rounding error, and when `5*a = b` both sides round to the same double. -/
def ratioExceeds (nonText chunkLen : Nat) : Bool :=
  chunkLen < 5 * nonText

/-- Classification of a successfully read chunk (lines 102–124). -/
def classifyChunk (chunk : List Nat) : Bool :=
  if chunk.isEmpty then false
  else if chunk.contains 0 then true
  else if magicSignatures.any (fun sig => sig.isPrefixOf chunk) then true
  else ratioExceeds ((chunk.filter (fun b => isTextByte b = false)).length) chunk.length

/-- The classification `is_binary_file` computes when no I/O error occurs:
size check, extension deny-list, then the first-8192-bytes content checks. -/
def is_binary_content (ext : String) (size : Nat) (data : List Nat) : Bool :=
  if size = 0 then false
  else if binaryExtensions.contains ext then true
  else classifyChunk (data.take 8192)

/-- Environment for one `is_binary_file` call: the answers the filesystem
gives to its primitive operations.  `sizeRaise`/`readRaise` say whether
`os.path.getsize` / `open`+`read` raise an `OSError`. -/
structure BinEnv where
  sizeRaise : Bool
  size : Nat
  ext : String
  readRaise : Bool
  data : List Nat

/-- The body of `is_binary_file` without its `try/except` (lines 45–124);
an exception propagates as `Except.error`. -/
def is_binary_body (env : BinEnv) : Except PyExn Bool :=
  if env.sizeRaise then .error .osError
  else if env.size = 0 then .ok false
  else if binaryExtensions.contains env.ext then .ok true
  else if env.readRaise then .error .osError
  else .ok (classifyChunk (env.data.take 8192))

/-- `is_binary_file` with its handler (line 125): `except Exception`
returns `True`; anything that handler would not catch would propagate. -/
def is_binary_file (env : BinEnv) : Except PyExn Bool :=
  match is_binary_body env with
  | .ok b => .ok b
  | .error e => if exnIsException e then .ok true else .error e

/-! ## File processor (`process_file`, lines 131–285)

The environment fixes the outcome of every primitive operation of one call;
the result records what `process_file` returns (or raises), the final
on-disk content, and the backup file left behind (if any).  Content is
modelled at text level; the code reads and writes with the same encoding,
so text equality is byte equality. -/

/-- Result of reading the file as UTF-8. -/
inductive ReadRes
  | ok
  | unicodeErr
  | osErr
  deriving DecidableEq

/-- Outcome of `open(file_path, "w").write(...)`: success, or failure
leaving arbitrary (possibly truncated/partial) bytes `junk` on disk. -/
inductive WriteOutcome
  | ok
  | fail (junk : List Char)
  deriving DecidableEq

structure Env where
  /-- `os.path.exists` -/
  present : Bool
  /-- `os.path.getsize` raises -/
  sizeRaise : Bool
  /-- `os.path.getsize` result -/
  size : Nat
  /-- verdict of `is_binary_file` (which never raises) -/
  binary : Bool
  /-- `os.access(file_path, os.R_OK)` -/
  readable : Bool
  /-- `os.access(file_path, os.W_OK)` -/
  writable : Bool
  /-- reading with UTF-8 -/
  utf8 : ReadRes
  /-- the latin-1 fallback read succeeds -/
  latin1Ok : Bool
  /-- the decoded text of the file -/
  content : List Char
  /-- `shutil.copy2(file_path, temp_backup)` succeeds -/
  backupOk : Bool
  /-- the overwrite of the original file -/
  write : WriteOutcome
  /-- `os.remove(temp_backup)` after a successful write succeeds -/
  removeOk : Bool
  /-- `shutil.copy2(temp_backup, file_path)` during restore succeeds -/
  restoreCopyOk : Bool
  /-- `os.remove(temp_backup)` during restore succeeds -/
  restoreRemoveOk : Bool

structure PFResult where
  /-- the `bool` returned to the caller, or the exception raised -/
  ret : Except PyExn Bool
  /-- file content on disk afterwards -/
  disk : List Char
  /-- the `<path>.bak` file afterwards, if it exists -/
  backup : Option (List Char)

/-- The restore attempt in the write-failure handler (lines 252–269):
`shutil.copy2(temp_backup, file_path)` then `os.remove(temp_backup)`,
with its own blanket `except` that only logs.  Takes the current disk
content `d` and the backup content `b`; returns the resulting disk content
and remaining backup file. -/
def attemptRestore (env : Env) (d b : List Char) : List Char × Option (List Char) :=
  if env.restoreCopyOk then
    if env.restoreRemoveOk then (b, none) else (b, some b)
  else (d, some b)

/-- The guarded write of lines 228–273: best-effort backup (a failed copy
only logs, lines 231–237), overwrite, backup removal; on any failure inside
the `try`, restore from the backup if it exists and return `False`.
`original` is the pre-write disk content, `modified` the text to write. -/
def writePhase (env : Env) (original modified : List Char) : PFResult :=
  match env.write with
  | .ok =>
    match (if env.backupOk then some original else none : Option (List Char)) with
    | none => ⟨.ok true, modified, none⟩
    | some b =>
      if env.removeOk then ⟨.ok true, modified, none⟩
      else
        -- `os.remove` raised inside the same `try`: the handler sees the
        -- backup still present and restores the original over the
        -- fresh write, then returns False (lines 250–273)
        ⟨.ok false, (attemptRestore env modified b).1, (attemptRestore env modified b).2⟩
  | .fail junk =>
    match (if env.backupOk then some original else none : Option (List Char)) with
    | none => ⟨.ok false, junk, none⟩
    | some b =>
      ⟨.ok false, (attemptRestore env junk b).1, (attemptRestore env junk b).2⟩

/-- The body of `process_file` inside the outer `try` (lines 135–277);
the backup of line 230 is best-effort (a failed copy only logs). -/
def processFileBody (cfg : Cfg) (env : Env) : PFResult :=
  if env.present = false then ⟨.ok false, env.content, none⟩
  else if env.sizeRaise then ⟨.error .osError, env.content, none⟩
  else if env.size = 0 then ⟨.ok false, env.content, none⟩
  else if env.binary then ⟨.ok false, env.content, none⟩
  else if env.readable = false then ⟨.ok false, env.content, none⟩
  else if env.writable = false then ⟨.ok false, env.content, none⟩
  else if env.utf8 = .osErr then ⟨.error .osError, env.content, none⟩
  else if env.utf8 = .unicodeErr && env.latin1Ok = false then ⟨.ok false, env.content, none⟩
  else if env.content = transform cfg env.content then ⟨.ok false, env.content, none⟩
  else writePhase env env.content (transform cfg env.content)

/-- The outer handlers of `process_file` (lines 278–285):
`except PermissionError` and `except Exception`, both returning `False`.
An exception neither handler catches would propagate unchanged. -/
def applyHandlers (r : PFResult) : PFResult :=
  match r.ret with
  | .error e =>
    if exnIsPermissionError e || exnIsException e then { r with ret := .ok false } else r
  | .ok _ => r

/-- `process_file`: the body guarded by the outer handlers. -/
def process_file (cfg : Cfg) (env : Env) : PFResult :=
  applyHandlers (processFileBody cfg env)

/-! ## Parallel coordinator (`process_files_parallel`, lines 347–426) -/

/-- What the coordinator observes from one completed future:
`future.result()` returned a bool, or raised. -/
inductive WorkerRes
  | ret (b : Bool)
  | exn
  deriving DecidableEq

/-- The counter updates of the result-collection loop (lines 399–414):
`(processed, skipped, errors)`; a `True` result increments `processed`,
a `False` result `skipped`, a raise `errors`. -/
def tally : List WorkerRes → Nat × Nat × Nat
  | [] => (0, 0, 0)
  | .ret true :: rest => ((tally rest).1 + 1, (tally rest).2.1, (tally rest).2.2)
  | .ret false :: rest => ((tally rest).1, (tally rest).2.1 + 1, (tally rest).2.2)
  | .exn :: rest => ((tally rest).1, (tally rest).2.1, (tally rest).2.2 + 1)

/-- Splitting the file list into batches of `batch_size = 1000`
(lines 374–376), with fuel for structural recursion (`fuel ≥ l.length`
always suffices since each step consumes at least one element). -/
def chunkAux {α : Type} : Nat → List α → List (List α)
  | _, [] => []
  | 0, l => [l]
  | fuel + 1, x :: l => ((x :: l).take 1000) :: chunkAux fuel ((x :: l).drop 1000)

def chunkBy1000 {α : Type} (l : List α) : List (List α) := chunkAux l.length l

/-- Summing the per-batch tallies: batches run one after another and the
three counters only ever accumulate. -/
def totalTally : List (List WorkerRes) → Nat × Nat × Nat
  | [] => (0, 0, 0)
  | rs :: rest =>
    ((tally rs).1 + (totalTally rest).1,
     (tally rs).2.1 + (totalTally rest).2.1,
     (tally rs).2.2 + (totalTally rest).2.2)

/-- What the coordinator's `try` around `future.result()` observes for one
file (lines 401–412). -/
def workerOutcome (cfg : Cfg) (env : Env) : WorkerRes :=
  match (process_file cfg env).ret with
  | .ok b => .ret b
  | .error _ => .exn

/-! ## Output predicates used to state the whitespace claims -/

/-- The next position is a `'\n'` or the end of the text. -/
def nlOrEnd : List Char → Bool
  | [] => true
  | c :: _ => c = '\n'

/-- The text starts with a `'\n'`. -/
def firstNL : List Char → Bool
  | [] => false
  | c :: _ => c = '\n'

/-- The text starts with a nonempty run of whitespace followed by `'\n'`. -/
def startsBad : List Char → Bool
  | [] => false
  | c :: rest => isPySpace c && (firstNL rest || startsBad rest)

/-- No line of the text ends in a space or tab: there is no space/tab
immediately followed by `'\n'` or the end of the text. -/
def noTrailWS : List Char → Bool
  | [] => true
  | c :: rest => !((c = ' ' || c = '\t') && nlOrEnd rest) && noTrailWS rest

/-- No `'\n'` is followed by a nonempty whitespace run and another `'\n'`:
after a line break, at most one immediately adjacent blank line can occur
before non-whitespace text.  In LF-normalized text this says every interior
run of 2+ blank lines has been collapsed. -/
def noBlankRun : List Char → Bool
  | [] => true
  | c :: rest => (if c = '\n' then !startsBad rest else true) && noBlankRun rest

/-- The whitespace prefix of the text contains no `'\n'` (the scanning
invariant that holds just after each `re.sub` replacement). -/
def wsPrefNoNL (l : List Char) : Prop := '\n' ∉ l.takeWhile isPySpace

/-- Every `'\r'` is immediately followed by `'\n'` and every `'\n'`
immediately preceded by `'\r'`: all line endings are CRLF pairs. -/
def crlfPaired : List Char → Bool
  | [] => true
  | [c] => decide (c ≠ '\r' ∧ c ≠ '\n')
  | c :: d :: rest =>
    if c = '\r' then
      if d = '\n' then crlfPaired rest else false
    else if c = '\n' then false
    else crlfPaired (d :: rest)

/-- The bytes of a plain ASCII text file: tab, LF, CR and printable
ASCII `0x20`–`0x7e`. -/
def isAsciiText (b : Nat) : Bool :=
  b = 9 || b = 10 || b = 13 || (0x20 ≤ b && b ≤ 0x7e)

/-! ## Lemmas about the replacement primitives -/

theorem mem_replCRLF : ∀ {c : Char} (l : List Char), c ∈ replCRLF l → c ∈ l ∨ c = '\n'
  | _, [], h => absurd h (by simp [replCRLF])
  | _, [d], h => by
    simp [replCRLF] at h
    exact Or.inl (by simp [h])
  | c, a :: b :: rest, h => by
    rw [replCRLF] at h
    split at h
    · rcases List.mem_cons.1 h with h' | h'
      · exact Or.inr h'
      · rcases mem_replCRLF rest h' with h'' | h''
        · exact Or.inl (by simp [h''])
        · exact Or.inr h''
    · rcases List.mem_cons.1 h with h' | h'
      · exact Or.inl (by simp [h'])
      · rcases mem_replCRLF (b :: rest) h' with h'' | h''
        · exact Or.inl (List.mem_cons_of_mem _ h'')
        · exact Or.inr h''

theorem mem_replCR {c : Char} (l : List Char) (h : c ∈ replCR l) : c ∈ l ∨ c = '\n' := by
  simp only [replCR, List.mem_map] at h
  rcases h with ⟨a, ha, hc⟩
  by_cases hr : a = '\r'
  · simp [hr] at hc; exact Or.inr hc.symm
  · simp [hr] at hc; exact Or.inl (hc ▸ ha)

theorem mem_replLF : ∀ {c : Char} (l : List Char), c ∈ replLF l → c ∈ l ∨ c = '\r'
  | _, [], h => absurd h (by simp [replLF])
  | c, a :: rest, h => by
    rw [replLF] at h
    split at h
    · rcases List.mem_cons.1 h with h' | h'
      · exact Or.inr h'
      · rcases List.mem_cons.1 h' with h'' | h''
        · exact Or.inl (by simp_all)
        · rcases mem_replLF rest h'' with h3 | h3
          · exact Or.inl (List.mem_cons_of_mem _ h3)
          · exact Or.inr h3
    · rcases List.mem_cons.1 h with h' | h'
      · exact Or.inl (by simp [h'])
      · rcases mem_replLF rest h' with h3 | h3
        · exact Or.inl (List.mem_cons_of_mem _ h3)
        · exact Or.inr h3

theorem mem_replTab : ∀ {c : Char} (l : List Char), c ∈ replTab l → c ∈ l ∨ c = ' '
  | _, [], h => absurd h (by simp [replTab])
  | c, a :: rest, h => by
    rw [replTab] at h
    split at h
    · simp only [List.mem_cons] at h
      rcases h with h' | h' | h' | h' | h'
      · exact Or.inr h'
      · exact Or.inr h'
      · exact Or.inr h'
      · exact Or.inr h'
      · rcases mem_replTab rest h' with h3 | h3
        · exact Or.inl (List.mem_cons_of_mem _ h3)
        · exact Or.inr h3
    · rcases List.mem_cons.1 h with h' | h'
      · exact Or.inl (by simp [h'])
      · rcases mem_replTab rest h' with h3 | h3
        · exact Or.inl (List.mem_cons_of_mem _ h3)
        · exact Or.inr h3

theorem replCR_no_cr (l : List Char) : '\r' ∉ replCR l := by
  intro h
  simp only [replCR, List.mem_map] at h
  rcases h with ⟨a, -, hc⟩
  by_cases hr : a = '\r' <;> simp [hr] at hc

theorem replCRLF_cons_ne (c : Char) (l : List Char) (h : c ≠ '\r') :
    replCRLF (c :: l) = c :: replCRLF l := by
  cases l <;> simp [replCRLF, h]

theorem replCRLF_crlf (l : List Char) :
    replCRLF ('\r' :: '\n' :: l) = '\n' :: replCRLF l := by
  simp [replCRLF]

theorem replCRLF_id_of_no_cr : ∀ (l : List Char), '\r' ∉ l → replCRLF l = l
  | [], _ => rfl
  | [_], _ => rfl
  | a :: b :: rest, h => by
    have ha : a ≠ '\r' := fun e => h (by simp [e])
    have h2 : '\r' ∉ b :: rest := fun m => h (List.mem_cons_of_mem _ m)
    rw [replCRLF_cons_ne a _ ha, replCRLF_id_of_no_cr (b :: rest) h2]

theorem replCR_id_of_no_cr (l : List Char) (h : '\r' ∉ l) : replCR l = l := by
  induction l with
  | nil => rfl
  | cons a rest ih =>
    have ha : a ≠ '\r' := fun e => h (by simp [e])
    have h2 : '\r' ∉ rest := fun m => h (List.mem_cons_of_mem _ m)
    simp [replCR, ha] at ih ⊢
    exact ih h2

theorem replCRLF_replLF : ∀ (l : List Char), '\r' ∉ l → replCRLF (replLF l) = l
  | [], _ => rfl
  | c :: rest, h => by
    have hrest : '\r' ∉ rest := fun m => h (List.mem_cons_of_mem _ m)
    have hc : c ≠ '\r' := fun e => h (by simp [e])
    by_cases hn : c = '\n'
    · subst hn
      rw [show replLF ('\n' :: rest) = '\r' :: '\n' :: replLF rest by simp [replLF],
        replCRLF_crlf, replCRLF_replLF rest hrest]
    · rw [show replLF (c :: rest) = c :: replLF rest by simp [replLF, hn],
        replCRLF_cons_ne c _ hc, replCRLF_replLF rest hrest]

theorem replTab_no_tab : ∀ (l : List Char), '\t' ∉ replTab l
  | [] => by simp [replTab]
  | c :: rest => by
    intro h
    rw [replTab] at h
    split at h
    · simp only [List.mem_cons] at h
      rcases h with h | h | h | h | h
      all_goals first
        | exact absurd h.symm (by decide)
        | exact replTab_no_tab rest h
    · rcases List.mem_cons.1 h with h' | h'
      · rename_i hne
        exact hne h'.symm
      · exact replTab_no_tab rest h'

theorem replTab_id_of_no_tab (l : List Char) (h : '\t' ∉ l) : replTab l = l := by
  induction l with
  | nil => rfl
  | cons a rest ih =>
    have ha : a ≠ '\t' := fun e => h (by simp [e])
    have h2 : '\t' ∉ rest := fun m => h (List.mem_cons_of_mem _ m)
    simp [replTab, ha, ih h2]

theorem crlfPaired_replLF : ∀ (l : List Char), '\r' ∉ l → crlfPaired (replLF l) = true
  | [], _ => rfl
  | c :: rest, h => by
    have hrest : '\r' ∉ rest := fun m => h (List.mem_cons_of_mem _ m)
    have hc : c ≠ '\r' := fun e => h (by simp [e])
    by_cases hn : c = '\n'
    · subst hn
      rw [show replLF ('\n' :: rest) = '\r' :: '\n' :: replLF rest by simp [replLF]]
      simp [crlfPaired, crlfPaired_replLF rest hrest]
    · rw [show replLF (c :: rest) = c :: replLF rest by simp [replLF, hn]]
      have ih := crlfPaired_replLF rest hrest
      cases hX : replLF rest with
      | nil => simp [crlfPaired, hc, hn]
      | cons d xs =>
        rw [hX] at ih
        simp [crlfPaired, hc, hn, ih]

/-- The LF-normalization `replCR (replCRLF l)` leaves no `'\r'`. -/
theorem normalizeNewlines_lf_no_cr (l : List Char) :
    '\r' ∉ normalizeNewlines .lf l := by
  simp only [normalizeNewlines]
  exact replCR_no_cr _

/-- LF-normalization is the identity on CR-free text. -/
theorem normalizeNewlines_lf_id (l : List Char) (h : '\r' ∉ l) :
    normalizeNewlines .lf l = l := by
  simp only [normalizeNewlines]
  rw [replCRLF_id_of_no_cr l h, replCR_id_of_no_cr l h]

theorem no_tab_normalizeNewlines (fmt : Fmt) (l : List Char) (h : '\t' ∉ l) :
    '\t' ∉ normalizeNewlines fmt l := by
  cases fmt <;> simp only [normalizeNewlines] <;> intro hm
  · rcases mem_replLF _ hm with h1 | h1
    · rcases mem_replCR _ h1 with h2 | h2
      · rcases mem_replCRLF _ h2 with h3 | h3
        · exact h h3
        · exact absurd h3 (by decide)
      · exact absurd h2 (by decide)
    · exact absurd h1 (by decide)
  · rcases mem_replCR _ hm with h1 | h1
    · rcases mem_replCRLF _ h1 with h2 | h2
      · exact h h2
      · exact absurd h2 (by decide)
    · exact absurd h1 (by decide)

/-- `normalizeNewlines` is idempotent (for each target format). -/
theorem normalizeNewlines_idem (fmt : Fmt) (l : List Char) :
    normalizeNewlines fmt (normalizeNewlines fmt l) = normalizeNewlines fmt l := by
  cases fmt
  · -- crlf
    have hu : '\r' ∉ replCR (replCRLF l) := replCR_no_cr _
    simp only [normalizeNewlines]
    rw [replCRLF_replLF _ hu, replCR_id_of_no_cr _ hu]
  · -- lf
    have hu : '\r' ∉ replCR (replCRLF l) := replCR_no_cr _
    simp only [normalizeNewlines]
    rw [replCRLF_id_of_no_cr _ hu, replCR_id_of_no_cr _ hu]

/-- Converting to LF after converting to CRLF gives the same text as
converting to LF directly (round-trip). -/
theorem normalizeNewlines_lf_crlf (l : List Char) :
    normalizeNewlines .lf (normalizeNewlines .crlf l) = normalizeNewlines .lf l := by
  have hu : '\r' ∉ replCR (replCRLF l) := replCR_no_cr _
  simp only [normalizeNewlines]
  rw [replCRLF_replLF _ hu, replCR_id_of_no_cr _ hu]

/-! ## Lemmas about the blank-line collapsing pass -/

theorem wsToLastNL_le : ∀ (l : List Char) {n : Nat}, wsToLastNL l = some n → n ≤ l.length
  | [], _, h => by simp [wsToLastNL] at h
  | c :: rest, n, h => by
    simp only [wsToLastNL] at h
    split at h
    · split at h
      · rename_i m hr
        cases h
        exact Nat.succ_le_succ (wsToLastNL_le rest hr)
      · split at h
        · cases h
          simp
        · exact absurd h (by simp)
    · exact absurd h (by simp)

theorem wsToLastNL_none_iff :
    ∀ (l : List Char), wsToLastNL l = none ↔ '\n' ∉ l.takeWhile isPySpace
  | [] => by simp [wsToLastNL]
  | c :: rest => by
    have hrec := wsToLastNL_none_iff rest
    by_cases hs : isPySpace c
    · rcases hr : wsToLastNL rest with - | m
      · rw [hr] at hrec
        simp only [true_iff] at hrec
        by_cases hn : c = '\n'
        · subst hn
          simp [wsToLastNL, hs, hr, List.takeWhile]
        · simp only [wsToLastNL, hs, hr, if_true, List.takeWhile, if_neg hn]
          simp [List.takeWhile, hs, hrec]
          exact fun e => hn e.symm
      · have hmem : '\n' ∈ rest.takeWhile isPySpace := by
          by_contra hcon
          rw [← hrec] at hcon
          simp [hr] at hcon
        simp [wsToLastNL, hs, hr, List.takeWhile, hmem]
    · have hsf : isPySpace c = false := by simpa using hs
      simp [wsToLastNL, hsf, List.takeWhile]

theorem wsToLastNL_drop : ∀ (l : List Char) {n : Nat}, wsToLastNL l = some n →
    '\n' ∉ (l.drop n).takeWhile isPySpace
  | [], _, h => by simp [wsToLastNL] at h
  | c :: rest, n, h => by
    simp only [wsToLastNL] at h
    split at h
    · split at h
      · rename_i m hr
        cases h
        simpa using wsToLastNL_drop rest hr
      · split at h
        · cases h
          simpa using (wsToLastNL_none_iff rest).1 (by assumption)
        · exact absurd h (by simp)
    · exact absurd h (by simp)

theorem mem_subBlankAux :
    ∀ (fuel : Nat) {c : Char} (l : List Char), c ∈ subBlankAux fuel l → c ∈ l ∨ c = '\n' := by
  intro fuel
  induction fuel with
  | zero =>
    intro c l h
    cases l with
    | nil => simp [subBlankAux] at h
    | cons a rest => exact Or.inl (by simpa [subBlankAux] using h)
  | succ k ih =>
    intro c l h
    cases l with
    | nil => simp [subBlankAux] at h
    | cons a rest =>
      by_cases ha : a = '\n'
      · subst ha
        rcases hr : wsToLastNL rest with - | n
        · have heq : subBlankAux (k + 1) ('\n' :: rest) = '\n' :: subBlankAux k rest := by
            rw [subBlankAux.eq_def]
            simp [hr]
          rw [heq] at h
          rcases List.mem_cons.1 h with h1 | h1
          · exact Or.inr h1
          rcases ih _ h1 with h3 | h3
          · exact Or.inl (List.mem_cons_of_mem _ h3)
          · exact Or.inr h3
        · have heq : subBlankAux (k + 1) ('\n' :: rest) =
              '\n' :: '\n' :: subBlankAux k (rest.drop n) := by
            rw [subBlankAux.eq_def]
            simp [hr]
          rw [heq] at h
          rcases List.mem_cons.1 h with h1 | h1
          · exact Or.inr h1
          rcases List.mem_cons.1 h1 with h2 | h2
          · exact Or.inr h2
          rcases ih _ h2 with h3 | h3
          · exact Or.inl (List.mem_cons_of_mem _ (List.drop_subset _ _ h3))
          · exact Or.inr h3
      · have heq : subBlankAux (k + 1) (a :: rest) = a :: subBlankAux k rest := by
          rw [subBlankAux.eq_def]
          simp [ha]
        rw [heq] at h
        rcases List.mem_cons.1 h with h1 | h1
        · exact Or.inl (h1 ▸ List.mem_cons_self _ _)
        rcases ih _ h1 with h3 | h3
        · exact Or.inl (List.mem_cons_of_mem _ h3)
        · exact Or.inr h3

/-- Invariant of the `re.sub(r"\n\s*\n", "\n\n", ·)` output: no `'\n'` is
followed by whitespace and another `'\n'`, and when the input's whitespace
prefix has no `'\n'` neither does the output's. -/
theorem subBlankAux_good : ∀ (fuel : Nat) (l : List Char), l.length ≤ fuel →
    noBlankRun (subBlankAux fuel l) = true ∧
      (wsPrefNoNL l →
        startsBad (subBlankAux fuel l) = false ∧ firstNL (subBlankAux fuel l) = false) := by
  intro fuel
  induction fuel with
  | zero =>
    intro l hl
    have : l = [] := List.length_eq_zero.1 (Nat.le_zero.1 hl)
    subst this
    simp [subBlankAux, noBlankRun, startsBad, firstNL]
  | succ k ih =>
    intro l hl
    cases l with
    | nil => simp [subBlankAux, noBlankRun, startsBad, firstNL]
    | cons c rest =>
      have hlrest : rest.length ≤ k := by
        simpa using Nat.le_of_succ_le_succ (by simpa using hl)
      by_cases hc : c = '\n'
      · subst hc
        rcases hr : wsToLastNL rest with - | n
        · have heq : subBlankAux (k + 1) ('\n' :: rest) = '\n' :: subBlankAux k rest := by
            rw [subBlankAux.eq_def]
            simp [hr]
          obtain ⟨hno, hgood⟩ := ih rest hlrest
          obtain ⟨hsb, hfn⟩ := hgood ((wsToLastNL_none_iff rest).1 hr)
          rw [heq]
          refine ⟨by simp [noBlankRun, hsb, hno], ?_⟩
          intro hw
          exfalso
          exact hw (by simp [List.takeWhile, (show isPySpace '\n' = true by decide)])
        · have heq : subBlankAux (k + 1) ('\n' :: rest) =
              '\n' :: '\n' :: subBlankAux k (rest.drop n) := by
            rw [subBlankAux.eq_def]
            simp [hr]
          have hlen : (rest.drop n).length ≤ k := by
            have := wsToLastNL_le rest hr
            simp only [List.length_drop]
            omega
          obtain ⟨hno, hgood⟩ := ih (rest.drop n) hlen
          obtain ⟨hsb, hfn⟩ := hgood (wsToLastNL_drop rest hr)
          rw [heq]
          refine ⟨?_, ?_⟩
          · simp [noBlankRun, startsBad, hsb, hfn, hno,
              (show isPySpace '\n' = true by decide)]
          · intro hw
            exfalso
            exact hw (by simp [List.takeWhile, (show isPySpace '\n' = true by decide)])
      · have heq : subBlankAux (k + 1) (c :: rest) = c :: subBlankAux k rest := by
          rw [subBlankAux.eq_def]
          simp [hc]
        obtain ⟨hno, hgood⟩ := ih rest hlrest
        rw [heq]
        refine ⟨by simp [noBlankRun, hc, hno], ?_⟩
        intro hw
        by_cases hs : isPySpace c
        · have hpref : wsPrefNoNL rest := by
            intro hm
            exact hw (by simp only [List.takeWhile, hs]; exact List.mem_cons_of_mem _ hm)
          obtain ⟨hsb, hfn⟩ := hgood hpref
          exact ⟨by simp [startsBad, hs, hsb, hfn], by simp [firstNL, hc]⟩
        · have hsf : isPySpace c = false := by simpa using hs
          exact ⟨by simp [startsBad, hsf], by simp [firstNL, hc]⟩

theorem subBlankAux_cons_ne (fuel : Nat) (c : Char) (rest : List Char) (h : c ≠ '\n') :
    subBlankAux (fuel + 1) (c :: rest) = c :: subBlankAux fuel rest := by
  rw [subBlankAux.eq_def]
  simp [h]

theorem subBlankAux_cons_nl_some (fuel n : Nat) (rest : List Char)
    (hr : wsToLastNL rest = some n) :
    subBlankAux (fuel + 1) ('\n' :: rest) = '\n' :: '\n' :: subBlankAux fuel (rest.drop n) := by
  rw [subBlankAux.eq_def]
  simp [hr]

theorem wsToLastNL_replicate_nl (tailc : Char) (ht : isPySpace tailc = false) :
    ∀ m : Nat, 1 ≤ m → wsToLastNL (List.replicate m '\n' ++ [tailc]) = some m := by
  intro m
  induction m with
  | zero => intro h; cases h
  | succ j ih =>
    intro _
    by_cases hj : j = 0
    · subst hj
      simp [wsToLastNL, (show isPySpace '\n' = true by decide), ht]
    · have hws' := ih (by omega)
      rw [List.replicate_succ, List.cons_append]
      simp [wsToLastNL, (show isPySpace '\n' = true by decide), hws']

/-- A run of `j + 2` newlines followed by `'y'` collapses to exactly two
newlines (one blank line) under the blank-line sub. -/
theorem subBlankAux_runs (j : Nat) : ∀ fuel : Nat, j + 2 ≤ fuel →
    subBlankAux fuel (List.replicate (j + 2) '\n' ++ ['y']) = ['\n', '\n', 'y'] := by
  intro fuel h
  obtain ⟨f, rfl⟩ : ∃ f, fuel = f + 1 := ⟨fuel - 1, by omega⟩
  rw [List.replicate_succ, List.cons_append,
    subBlankAux_cons_nl_some f (j + 1) _
      (wsToLastNL_replicate_nl 'y' (by decide) (j + 1) (by omega))]
  have hdrop : (List.replicate (j + 1) '\n' ++ ['y']).drop (j + 1) = ['y'] :=
    List.drop_left' (by simp)
  rw [hdrop]
  obtain ⟨g, rfl⟩ : ∃ g, f = g + 1 := ⟨f - 1, by omega⟩
  rw [subBlankAux_cons_ne g 'y' [] (by decide)]
  simp [subBlankAux]

theorem subBlank_x_run (j : Nat) :
    subBlank ('x' :: (List.replicate (j + 2) '\n' ++ ['y'])) = ['x', '\n', '\n', 'y'] := by
  rw [subBlank]
  have hlen : ('x' :: (List.replicate (j + 2) '\n' ++ ['y'])).length = j + 4 := by
    simp only [List.length_cons, List.length_append, List.length_replicate,
      List.length_nil]
  rw [hlen, show j + 4 = (j + 3) + 1 by omega, subBlankAux_cons_ne (j + 3) 'x' _ (by decide),
    subBlankAux_runs j (j + 3) (by omega)]

/-! ## Lemmas about the trailing-whitespace stripping pass -/

theorem mem_stripTrail : ∀ {c : Char} (l : List Char), c ∈ stripTrail l → c ∈ l
  | _, [], h => absurd h (by simp [stripTrail])
  | c, a :: rest, h => by
    simp only [stripTrail] at h
    split at h
    · exact List.mem_cons_of_mem _ (mem_stripTrail rest h)
    · rcases List.mem_cons.1 h with h' | h'
      · exact h' ▸ List.mem_cons_self _ _
      · exact List.mem_cons_of_mem _ (mem_stripTrail rest h')

/-- If the stripped text starts with `'\n'` or is empty, the original text
was spaces/tabs up to a `'\n'` or its end. -/
theorem runToNL_of_nlOrEnd_stripTrail :
    ∀ (l : List Char), nlOrEnd (stripTrail l) = true → runToNL l = true
  | [], _ => rfl
  | a :: rest, h => by
    simp only [stripTrail] at h
    split at h
    · rename_i hcond
      simp only [Bool.and_eq_true, Bool.or_eq_true, decide_eq_true_eq] at hcond
      have hr := runToNL_of_nlOrEnd_stripTrail rest h
      rcases hcond.1 with hsp | hsp <;>
        simp [runToNL, hsp, hr]
    · rename_i hcond
      simp only [nlOrEnd] at h
      simp [runToNL, of_decide_eq_true h]

/-- The stripping pass establishes `noTrailWS`: afterwards no line ends in
a space or tab. -/
theorem noTrailWS_stripTrail : ∀ (l : List Char), noTrailWS (stripTrail l) = true
  | [] => rfl
  | a :: rest => by
    simp only [stripTrail]
    split
    · exact noTrailWS_stripTrail rest
    · rename_i hcond
      simp only [noTrailWS, Bool.and_eq_true, Bool.not_eq_true']
      refine ⟨?_, noTrailWS_stripTrail rest⟩
      by_cases hsp : (a = ' ' || a = '\t') = true
      · have hrun : runToNL rest = false := by
          cases hb : runToNL rest
          · rfl
          · exact absurd (by simp [hsp, hb]) hcond
        have hnl : nlOrEnd (stripTrail rest) = false := by
          cases hb : nlOrEnd (stripTrail rest)
          · rfl
          · rw [runToNL_of_nlOrEnd_stripTrail rest hb] at hrun
            cases hrun
        simp [hnl]
      · simp only [Bool.or_eq_true, decide_eq_true_eq, not_or] at hsp
        simp [hsp.1, hsp.2]

theorem firstNL_stripTrail :
    ∀ (l : List Char), firstNL (stripTrail l) = true → firstNL l = true ∨ startsBad l = true
  | [], h => by simp [stripTrail, firstNL] at h
  | a :: rest, h => by
    simp only [stripTrail] at h
    split at h
    · rename_i hcond
      simp only [Bool.and_eq_true, Bool.or_eq_true, decide_eq_true_eq] at hcond
      have hsp : isPySpace a = true := by
        rcases hcond.1 with hsp | hsp <;> simp [hsp, isPySpace]
      rcases firstNL_stripTrail rest h with h1 | h1
      · exact Or.inr (by simp [startsBad, hsp, h1])
      · exact Or.inr (by simp [startsBad, hsp, h1])
    · exact Or.inl (by simpa [firstNL] using h)

theorem startsBad_stripTrail :
    ∀ (l : List Char), startsBad (stripTrail l) = true → startsBad l = true
  | [], h => by simp [stripTrail, startsBad] at h
  | a :: rest, h => by
    simp only [stripTrail] at h
    split at h
    · rename_i hcond
      simp only [Bool.and_eq_true, Bool.or_eq_true, decide_eq_true_eq] at hcond
      have hsp : isPySpace a = true := by
        rcases hcond.1 with hsp | hsp <;> simp [hsp, isPySpace]
      have h1 := startsBad_stripTrail rest h
      simp [startsBad, hsp, h1]
    · simp only [startsBad, Bool.and_eq_true, Bool.or_eq_true] at h
      obtain ⟨hsp, h2⟩ := h
      rcases h2 with h2 | h2
      · rcases firstNL_stripTrail rest h2 with h3 | h3 <;>
          simp [startsBad, hsp, h3]
      · have h3 := startsBad_stripTrail rest h2
        simp [startsBad, hsp, h3]

/-- The stripping pass preserves the no-blank-run invariant. -/
theorem noBlankRun_stripTrail :
    ∀ (l : List Char), noBlankRun l = true → noBlankRun (stripTrail l) = true
  | [], _ => rfl
  | a :: rest, h => by
    simp only [noBlankRun, Bool.and_eq_true] at h
    obtain ⟨h1, h2⟩ := h
    simp only [stripTrail]
    split
    · exact noBlankRun_stripTrail rest h2
    · simp only [noBlankRun, Bool.and_eq_true]
      refine ⟨?_, noBlankRun_stripTrail rest h2⟩
      by_cases ha : a = '\n'
      · rw [if_pos ha] at h1 ⊢
        simp only [Bool.not_eq_true'] at h1 ⊢
        cases hb : startsBad (stripTrail rest)
        · rfl
        · rw [startsBad_stripTrail rest hb] at h1
          cases h1
      · rw [if_neg ha]

/-! ## Lemmas about the tab-expansion pass -/

theorem nlOrEnd_replTab (l : List Char) : nlOrEnd (replTab l) = nlOrEnd l := by
  cases l with
  | nil => rfl
  | cons a rest =>
    by_cases ha : a = '\t'
    · subst ha
      simp [replTab, nlOrEnd]
    · simp [replTab, nlOrEnd, ha]

theorem firstNL_replTab (l : List Char) : firstNL (replTab l) = firstNL l := by
  cases l with
  | nil => rfl
  | cons a rest =>
    by_cases ha : a = '\t'
    · subst ha
      simp [replTab, firstNL]
    · simp [replTab, firstNL, ha]

theorem firstNL_space (l : List Char) : firstNL (' ' :: l) = false := by
  simp only [firstNL]
  decide

theorem startsBad_cons_space (l : List Char) :
    startsBad (' ' :: l) = (firstNL l || startsBad l) := by
  simp [startsBad, (show isPySpace ' ' = true by decide)]

theorem startsBad_spaces4 (l : List Char) :
    startsBad (' ' :: ' ' :: ' ' :: ' ' :: l) = (firstNL l || startsBad l) := by
  rw [startsBad_cons_space, firstNL_space, startsBad_cons_space, firstNL_space,
    startsBad_cons_space, firstNL_space, startsBad_cons_space]
  simp

theorem startsBad_replTab :
    ∀ (l : List Char), startsBad (replTab l) = true → startsBad l = true
  | [], h => by simp [replTab, startsBad] at h
  | a :: rest, h => by
    by_cases ha : a = '\t'
    · subst ha
      rw [show replTab ('\t' :: rest) = ' ' :: ' ' :: ' ' :: ' ' :: replTab rest by
        simp [replTab], startsBad_spaces4] at h
      simp only [Bool.or_eq_true] at h
      rcases h with h2 | h2
      · rw [firstNL_replTab] at h2
        simp [startsBad, (show isPySpace '\t' = true by decide), h2]
      · have := startsBad_replTab rest h2
        simp [startsBad, (show isPySpace '\t' = true by decide), this]
    · rw [show replTab (a :: rest) = a :: replTab rest by simp [replTab, ha]] at h
      simp only [startsBad, Bool.and_eq_true, Bool.or_eq_true] at h
      obtain ⟨hsp, h2⟩ := h
      rcases h2 with h2 | h2
      · rw [firstNL_replTab] at h2
        simp [startsBad, hsp, h2]
      · have := startsBad_replTab rest h2
        simp [startsBad, hsp, this]

theorem noBlankRun_replTab :
    ∀ (l : List Char), noBlankRun l = true → noBlankRun (replTab l) = true
  | [], _ => rfl
  | a :: rest, h => by
    simp only [noBlankRun, Bool.and_eq_true] at h
    obtain ⟨h1, h2⟩ := h
    by_cases ha : a = '\t'
    · subst ha
      rw [show replTab ('\t' :: rest) = ' ' :: ' ' :: ' ' :: ' ' :: replTab rest by
        simp [replTab]]
      simp [noBlankRun, noBlankRun_replTab rest h2]
    · rw [show replTab (a :: rest) = a :: replTab rest by simp [replTab, ha]]
      simp only [noBlankRun, Bool.and_eq_true]
      refine ⟨?_, noBlankRun_replTab rest h2⟩
      by_cases han : a = '\n'
      · rw [if_pos han] at h1 ⊢
        simp only [Bool.not_eq_true'] at h1 ⊢
        cases hb : startsBad (replTab rest)
        · rfl
        · rw [startsBad_replTab rest hb] at h1
          cases h1
      · rw [if_neg han]

theorem noTrailWS_replTab :
    ∀ (l : List Char), noTrailWS l = true → noTrailWS (replTab l) = true
  | [], _ => rfl
  | a :: rest, h => by
    simp only [noTrailWS, Bool.and_eq_true, Bool.not_eq_true'] at h
    obtain ⟨h1, h2⟩ := h
    by_cases ha : a = '\t'
    · subst ha
      have hnl : nlOrEnd rest = false := by
        simpa using h1
      rw [show replTab ('\t' :: rest) = ' ' :: ' ' :: ' ' :: ' ' :: replTab rest by
        simp [replTab]]
      have hnl2 : nlOrEnd (replTab rest) = false := by
        rw [nlOrEnd_replTab]; exact hnl
      simp only [noTrailWS, Bool.and_eq_true, Bool.not_eq_true']
      refine ⟨?_, ?_, ?_, ?_, noTrailWS_replTab rest h2⟩
      · simp only [nlOrEnd]; decide
      · simp only [nlOrEnd]; decide
      · simp only [nlOrEnd]; decide
      · simp [hnl2]
    · rw [show replTab (a :: rest) = a :: replTab rest by simp [replTab, ha]]
      simp only [noTrailWS, Bool.and_eq_true, Bool.not_eq_true']
      refine ⟨?_, noTrailWS_replTab rest h2⟩
      rw [nlOrEnd_replTab]
      exact h1

/-! ## Lemmas about the file processor and the coordinator -/

/-- `process_file` always returns a boolean: every exception its body can
produce is an `Exception` subclass, caught by the outer handlers. -/
theorem applyHandlers_ret :
    ∀ (r : PFResult), (applyHandlers r).ret = .ok true ∨ (applyHandlers r).ret = .ok false
  | ⟨.ok true, d, b⟩ => Or.inl rfl
  | ⟨.ok false, d, b⟩ => Or.inr rfl
  | ⟨.error e, d, b⟩ => by
    cases e <;> exact Or.inr rfl

theorem process_file_total (cfg : Cfg) (env : Env) :
    (process_file cfg env).ret = .ok true ∨ (process_file cfg env).ret = .ok false :=
  applyHandlers_ret (processFileBody cfg env)

theorem tally_sum : ∀ (rs : List WorkerRes),
    (tally rs).1 + (tally rs).2.1 + (tally rs).2.2 = rs.length
  | [] => rfl
  | .ret true :: rest => by
    have := tally_sum rest
    simp only [tally, List.length_cons]
    omega
  | .ret false :: rest => by
    have := tally_sum rest
    simp only [tally, List.length_cons]
    omega
  | .exn :: rest => by
    have := tally_sum rest
    simp only [tally, List.length_cons]
    omega

theorem chunkAux_length_sum {α : Type} : ∀ (fuel : Nat) (l : List α), l.length ≤ fuel →
    ((chunkAux fuel l).map List.length).sum = l.length := by
  intro fuel
  induction fuel with
  | zero =>
    intro l hl
    have : l = [] := List.length_eq_zero.1 (Nat.le_zero.1 hl)
    subst this
    simp [chunkAux]
  | succ k ih =>
    intro l hl
    cases l with
    | nil => simp [chunkAux]
    | cons x rest =>
      have heq : chunkAux (k + 1) (x :: rest) =
          ((x :: rest).take 1000) :: chunkAux k ((x :: rest).drop 1000) := by
        simp [chunkAux]
      have hlen : ((x :: rest).drop 1000).length ≤ k := by
        simp only [List.length_drop, List.length_cons]
        simp only [List.length_cons] at hl
        omega
      rw [heq]
      simp only [List.map_cons, List.sum_cons, ih _ hlen]
      simp only [List.length_take, List.length_drop, List.length_cons]
      omega

/-- Total of the per-batch tallies when each batch's collected results are
a permutation of that batch's worker results. -/
theorem totalTally_perm {α : Type} (f : α → WorkerRes) :
    ∀ (rss : List (List WorkerRes)) (bss : List (List α)),
      List.Forall₂ (fun rs batch => rs.Perm (batch.map f)) rss bss →
      (totalTally rss).1 + (totalTally rss).2.1 + (totalTally rss).2.2 =
        (bss.map List.length).sum := by
  intro rss bss h
  induction h with
  | nil => rfl
  | cons hpair hrest ih =>
    rename_i rs batch rss' bss'
    simp only [totalTally, List.map_cons, List.sum_cons]
    have h1 := tally_sum rs
    have h2 : rs.length = batch.length := by
      rw [hpair.length_eq, List.length_map]
    omega

theorem applyHandlers_disk (r : PFResult) : (applyHandlers r).disk = r.disk := by
  rcases r with ⟨ret, d, bk⟩
  cases ret with
  | ok b => rfl
  | error e => cases e <;> rfl

theorem applyHandlers_backup (r : PFResult) : (applyHandlers r).backup = r.backup := by
  rcases r with ⟨ret, d, bk⟩
  cases ret with
  | ok b => rfl
  | error e => cases e <;> rfl

theorem applyHandlers_ret_false (r : PFResult)
    (h : r.ret = .ok false ∨ ∃ e, r.ret = .error e) :
    (applyHandlers r).ret = .ok false := by
  rcases r with ⟨ret, d, bk⟩
  rcases h with h | ⟨e, h⟩
  · simp only at h
    subst h
    rfl
  · simp only at h
    subst h
    cases e <;> rfl

theorem applyHandlers_id_of_ok (r : PFResult) (b : Bool) (h : r.ret = .ok b) :
    applyHandlers r = r := by
  rcases r with ⟨ret, d, bk⟩
  simp only at h
  subst h
  rfl

/-- With the backup and restore copies succeeding, the write phase leaves
either the original or the fully written content on disk. -/
theorem writePhase_disk_cases (env : Env) (original modified : List Char)
    (hb : env.backupOk = true) (hrc : env.restoreCopyOk = true) :
    (writePhase env original modified).disk = original ∨
      (writePhase env original modified).disk = modified := by
  rcases hw : env.write with - | junk <;>
    cases hrm : env.removeOk <;>
    cases hrr : env.restoreRemoveOk <;>
    simp [writePhase, hw, hb, hrm, hrr, attemptRestore, hrc]

/-- A failing overwrite (with backup and restore copies succeeding) ends
with the original restored and `False` returned. -/
theorem writePhase_write_fail (env : Env) (original modified junk : List Char)
    (hw : env.write = .fail junk) (hb : env.backupOk = true)
    (hrc : env.restoreCopyOk = true) :
    (writePhase env original modified).disk = original ∧
      (writePhase env original modified).ret = .ok false := by
  cases hrr : env.restoreRemoveOk <;>
    simp [writePhase, hw, hb, hrr, attemptRestore, hrc]

/-- The body takes one of three shapes: an early exit with untouched disk
returning `False`, an early raise with untouched disk, or the write phase. -/
theorem processFileBody_cases (cfg : Cfg) (env : Env) :
    processFileBody cfg env = ⟨.ok false, env.content, none⟩ ∨
      processFileBody cfg env = ⟨.error .osError, env.content, none⟩ ∨
      processFileBody cfg env = writePhase env env.content (transform cfg env.content) := by
  unfold processFileBody
  split_ifs
  · exact Or.inl rfl
  · exact Or.inr (Or.inl rfl)
  · exact Or.inl rfl
  · exact Or.inl rfl
  · exact Or.inl rfl
  · exact Or.inl rfl
  · exact Or.inr (Or.inl rfl)
  · exact Or.inl rfl
  · exact Or.inl rfl
  · exact Or.inr (Or.inr rfl)

/-- With the backup copy succeeding and the restore copy succeeding, every
path through the body leaves the original or the fully transformed content
on disk. -/
theorem processFileBody_disk_cases (cfg : Cfg) (env : Env)
    (hb : env.backupOk = true) (hrc : env.restoreCopyOk = true) :
    (processFileBody cfg env).disk = env.content ∨
      (processFileBody cfg env).disk = transform cfg env.content := by
  rcases processFileBody_cases cfg env with h | h | h
  · rw [h]
    exact Or.inl rfl
  · rw [h]
    exact Or.inl rfl
  · rw [h]
    exact writePhase_disk_cases env _ _ hb hrc

/-- If the overwrite fails (with the backup and restore copies succeeding),
the body ends with the original content on disk and does not return `True`. -/
theorem processFileBody_write_fail (cfg : Cfg) (env : Env) (junk : List Char)
    (hw : env.write = .fail junk) (hb : env.backupOk = true)
    (hrc : env.restoreCopyOk = true) :
    (processFileBody cfg env).disk = env.content ∧
      ((processFileBody cfg env).ret = .ok false ∨
        ∃ e, (processFileBody cfg env).ret = .error e) := by
  rcases processFileBody_cases cfg env with h | h | h
  · rw [h]
    exact ⟨rfl, Or.inl rfl⟩
  · rw [h]
    exact ⟨rfl, Or.inr ⟨.osError, rfl⟩⟩
  · rw [h]
    obtain ⟨hd, hr⟩ :=
      writePhase_write_fail env env.content (transform cfg env.content) junk hw hb hrc
    exact ⟨hd, Or.inl hr⟩

/-- When every pre-write check passes, some decoding succeeds (UTF-8, or
the Latin-1 fallback after a `UnicodeDecodeError`), and the transformation
is a no-op, the body returns `False` and leaves disk and backup
untouched. -/
theorem processFileBody_nochange (cfg : Cfg) (env : Env)
    (hp : env.present = true) (hsr : env.sizeRaise = false) (hsz : env.size ≠ 0)
    (hbin : env.binary = false) (hrd : env.readable = true) (hwr : env.writable = true)
    (hu8 : env.utf8 ≠ .osErr) (hlat : env.utf8 = .unicodeErr → env.latin1Ok = true)
    (heq : transform cfg env.content = env.content) :
    processFileBody cfg env = ⟨.ok false, env.content, none⟩ := by
  unfold processFileBody
  rw [if_neg (by simp [hp]), if_neg (by simp [hsr]), if_neg hsz, if_neg (by simp [hbin]),
    if_neg (by simp [hrd]), if_neg (by simp [hwr]), if_neg (by simp [hu8]),
    if_neg (show ¬(env.utf8 = .unicodeErr && env.latin1Ok = false) = true by
      simp only [Bool.and_eq_true, decide_eq_true_eq]
      rintro ⟨h1, h2⟩
      rw [hlat h1] at h2
      cases h2),
    if_pos heq.symm]

/-! ## Concrete environments used by witnesses and counterexamples -/

/-- A run in which the best-effort backup fails and the overwrite fails,
leaving unrelated bytes on disk. -/
def envNoBackupFail : Env :=
  ⟨true, false, 3, false, true, true, .ok, true, ['a', '\r', '\n'],
    false, .fail ['z'], true, true, true⟩

/-- A run with a working backup in which the overwrite fails. -/
def envBackupFail : Env :=
  ⟨true, false, 3, false, true, true, .ok, true, ['a', '\r', '\n'],
    true, .fail ['z'], true, true, true⟩

/-- A fully healthy run on a file already in the target format. -/
def envNoChange : Env :=
  ⟨true, false, 2, false, true, true, .ok, true, ['a', '\n'],
    true, .ok, true, true, true⟩

/-- A run on a path that does not exist. -/
def envNotFound : Env :=
  ⟨false, false, 0, false, true, true, .ok, true, [],
    true, .ok, true, true, true⟩

/-! ## The claims -/

/-- C1: the claim that `transform` is idempotent for every text and every
configuration is false: with `stripWhitespace` enabled, trailing whitespace
before a CR-terminated line break survives the first pass (the `[ \t]+$`
strip runs before line-ending normalization and `$` only matches before
`\n`) and is removed by the second. -/
theorem c1_counterexample :
    ¬ (transform ⟨.lf, true, true⟩ (transform ⟨.lf, true, true⟩ ['a', ' ', '\r', '\n']) =
        transform ⟨.lf, true, true⟩ ['a', ' ', '\r', '\n']) := by
  decide

/-- C1 (amended): the content transformation is idempotent whenever
`stripWhitespace` is disabled, for both target formats and either tab
setting. -/
theorem c1_amended_idempotent (fmt : Fmt) (pt : Bool) (x : List Char) :
    transform ⟨fmt, false, pt⟩ (transform ⟨fmt, false, pt⟩ x) =
      transform ⟨fmt, false, pt⟩ x := by
  cases pt
  · have h1 : '\t' ∉ replTab x := replTab_no_tab x
    have h2 : '\t' ∉ normalizeNewlines fmt (replTab x) := no_tab_normalizeNewlines fmt _ h1
    simp only [transform, Bool.false_eq_true, if_false]
    rw [replTab_id_of_no_tab _ h2, normalizeNewlines_idem]
  · simp only [transform, Bool.false_eq_true, if_false, if_true]
    rw [normalizeNewlines_idem]

/-- C5: `process_file` never raises to its caller: for every environment
(every pattern of I/O failures) it returns exactly one boolean outcome. -/
theorem c5_no_exception_escapes (cfg : Cfg) (env : Env) :
    ∃ b : Bool, (process_file cfg env).ret = Except.ok b := by
  rcases process_file_total cfg env with h | h
  · exact ⟨true, h⟩
  · exact ⟨false, h⟩

/-- C7: line-ending normalization canonicalizes every CRLF and lone CR to
LF and then, for a CRLF target, expands every LF to CRLF: Scenario A holds,
the LF output has no CR, LF-normalization is the identity on CR-free text,
CRLF output consists of CRLF pairs only, and CRLF→LF round-trips. -/
theorem c7_newline_normalization :
    transform ⟨.lf, false, false⟩ ['a', '\r', '\n', 'b', '\n', 'c', '\r', 'd'] =
      ['a', '\n', 'b', '\n', 'c', '\n', 'd'] ∧
    (∀ l : List Char, '\r' ∉ normalizeNewlines .lf l) ∧
    (∀ l : List Char, '\r' ∉ l → normalizeNewlines .lf l = l) ∧
    (∀ l : List Char, crlfPaired (normalizeNewlines .crlf l) = true) ∧
    (∀ l : List Char,
      normalizeNewlines .lf (normalizeNewlines .crlf l) = normalizeNewlines .lf l) := by
  refine ⟨by decide, normalizeNewlines_lf_no_cr, normalizeNewlines_lf_id, ?_,
    normalizeNewlines_lf_crlf⟩
  intro l
  exact crlfPaired_replLF _ (replCR_no_cr _)

theorem c7_witness :
    ('\r' ∉ (['a', 'b'] : List Char)) ∧ normalizeNewlines .lf ['a', 'b'] = ['a', 'b'] :=
  ⟨by decide, c7_newline_normalization.2.2.1 ['a', 'b'] (by decide)⟩

/-- C6: the claim that trailing horizontal whitespace is stripped from the
end of every line is false as stated: stripping runs before line-ending
normalization, so a space before a CR-terminated break survives. -/
theorem c6_counterexample :
    transform ⟨.lf, true, false⟩ ['x', ' ', '\r', '\n', 'y'] = ['x', ' ', '\n', 'y'] ∧
    noTrailWS ['x', ' ', '\n', 'y'] = false := by
  decide

/-- C6 (amended): for CR-free input and LF target with `stripWhitespace`
enabled, no output line ends in a space or tab and no newline is followed
by whitespace and another newline (interior blank-line runs are collapsed);
Scenario B holds: `"x   \n\n\n\ny"` becomes `"x\n\ny"`; and a run of any
`k ≥ 2` newlines between two letters collapses to exactly one blank
line. -/
theorem c6_amended_strip (pt : Bool) (x : List Char) (hx : '\r' ∉ x) :
    (noTrailWS (transform ⟨.lf, true, pt⟩ x) = true ∧
      noBlankRun (transform ⟨.lf, true, pt⟩ x) = true) ∧
    transform ⟨.lf, true, false⟩ ['x', ' ', ' ', ' ', '\n', '\n', '\n', '\n', 'y'] =
      ['x', '\n', '\n', 'y'] ∧
    (∀ k : Nat, 2 ≤ k →
      transform ⟨.lf, true, pt⟩ ('x' :: (List.replicate k '\n' ++ ['y'])) =
        ['x', '\n', '\n', 'y']) := by
  refine ⟨?_, by decide, ?_⟩
  case refine_2 =>
    intro k hk
    obtain ⟨j, rfl⟩ : ∃ j, k = j + 2 := ⟨k - 2, by omega⟩
    have hst : stripTrail (subBlank ('x' :: (List.replicate (j + 2) '\n' ++ ['y']))) =
        ['x', '\n', '\n', 'y'] := by
      rw [subBlank_x_run j]
      decide
    cases pt
    · simp only [transform, if_true, Bool.false_eq_true, if_false]
      rw [hst]
      decide
    · simp only [transform, if_true]
      rw [hst]
      decide
  have hs1 : '\r' ∉ subBlank x := by
    intro hm
    rcases mem_subBlankAux x.length x hm with h | h
    · exact hx h
    · exact absurd h (by decide)
  have hs2 : '\r' ∉ stripTrail (subBlank x) := fun hm => hs1 (mem_stripTrail _ hm)
  have hnt : noTrailWS (stripTrail (subBlank x)) = true := noTrailWS_stripTrail _
  have hnb : noBlankRun (stripTrail (subBlank x)) = true :=
    noBlankRun_stripTrail _ (subBlankAux_good x.length x le_rfl).1
  cases pt
  · have hs3 : '\r' ∉ replTab (stripTrail (subBlank x)) := by
      intro hm
      rcases mem_replTab _ hm with h | h
      · exact hs2 h
      · exact absurd h (by decide)
    have heq : transform ⟨.lf, true, false⟩ x = replTab (stripTrail (subBlank x)) := by
      simp only [transform, if_true, Bool.false_eq_true, if_false]
      exact normalizeNewlines_lf_id _ hs3
    rw [heq]
    exact ⟨noTrailWS_replTab _ hnt, noBlankRun_replTab _ hnb⟩
  · have heq : transform ⟨.lf, true, true⟩ x = stripTrail (subBlank x) := by
      simp only [transform, if_true]
      exact normalizeNewlines_lf_id _ hs2
    rw [heq]
    exact ⟨hnt, hnb⟩

theorem c6_witness :
    ('\r' ∉ (['a', '\n', '\n', '\n', 'b'] : List Char)) ∧
    (noTrailWS (transform ⟨.lf, true, true⟩ ['a', '\n', '\n', '\n', 'b']) = true ∧
      noBlankRun (transform ⟨.lf, true, true⟩ ['a', '\n', '\n', '\n', 'b']) = true) :=
  ⟨by decide, (c6_amended_strip true ['a', '\n', '\n', '\n', 'b'] (by decide)).1⟩

/-- C2: the claim that the file is never left partially written is false as
stated: the backup is best-effort, and when the backup copy fails and the
overwrite then fails part-way, the partial bytes stay on disk with nothing
to restore from. -/
theorem c2_counterexample :
    ¬ ((process_file ⟨.lf, false, false⟩ envNoBackupFail).disk = envNoBackupFail.content ∨
        (process_file ⟨.lf, false, false⟩ envNoBackupFail).disk =
          transform ⟨.lf, false, false⟩ envNoBackupFail.content) := by
  decide

/-- C2 (amended): when the backup copy succeeds (and the restore copy
succeeds when needed), the file ends byte-identical to the original or
exactly equal to the transformed content — never partial; and a failing
overwrite ends with the original restored and a `False` (write-error)
outcome. -/
theorem c2_amended_backup_restore (cfg : Cfg) (env : Env)
    (hb : env.backupOk = true) (hrc : env.restoreCopyOk = true) :
    ((process_file cfg env).disk = env.content ∨
      (process_file cfg env).disk = transform cfg env.content) ∧
    (∀ junk : List Char, env.write = .fail junk →
      (process_file cfg env).disk = env.content ∧
        (process_file cfg env).ret = .ok false) := by
  constructor
  · unfold process_file
    rw [applyHandlers_disk]
    exact processFileBody_disk_cases cfg env hb hrc
  · intro junk hw
    obtain ⟨hdisk, hret⟩ := processFileBody_write_fail cfg env junk hw hb hrc
    constructor
    · unfold process_file
      rw [applyHandlers_disk]
      exact hdisk
    · unfold process_file
      exact applyHandlers_ret_false _ hret

theorem c2_witness :
    (envBackupFail.backupOk = true ∧ envBackupFail.restoreCopyOk = true ∧
      envBackupFail.write = .fail ['z']) ∧
    ((process_file ⟨.lf, false, false⟩ envBackupFail).disk = envBackupFail.content ∧
      (process_file ⟨.lf, false, false⟩ envBackupFail).ret = .ok false) :=
  ⟨⟨rfl, rfl, rfl⟩,
    (c2_amended_backup_restore ⟨.lf, false, false⟩ envBackupFail rfl rfl).2 ['z'] rfl⟩

/-- C8: a readable, writable, non-empty, non-binary file whose transformed
content equals the original is reported as a no-change skip (`False`) and
neither the file nor a backup is touched. -/
theorem c8_nochange_skip (cfg : Cfg) (env : Env)
    (hp : env.present = true) (hsr : env.sizeRaise = false) (hsz : env.size ≠ 0)
    (hbin : env.binary = false) (hrd : env.readable = true) (hwr : env.writable = true)
    (hu8 : env.utf8 ≠ .osErr) (hlat : env.utf8 = .unicodeErr → env.latin1Ok = true)
    (heq : transform cfg env.content = env.content) :
    (process_file cfg env).ret = .ok false ∧
      (process_file cfg env).disk = env.content ∧
      (process_file cfg env).backup = none := by
  have hbody := processFileBody_nochange cfg env hp hsr hsz hbin hrd hwr hu8 hlat heq
  unfold process_file
  rw [hbody]
  exact ⟨rfl, rfl, rfl⟩

theorem c8_witness :
    (envNoChange.present = true ∧ envNoChange.sizeRaise = false ∧ envNoChange.size ≠ 0 ∧
      envNoChange.binary = false ∧ envNoChange.readable = true ∧
      envNoChange.writable = true ∧ envNoChange.utf8 ≠ .osErr ∧
      transform ⟨.lf, false, true⟩ envNoChange.content = envNoChange.content) ∧
    ((process_file ⟨.lf, false, true⟩ envNoChange).ret = .ok false ∧
      (process_file ⟨.lf, false, true⟩ envNoChange).disk = envNoChange.content ∧
      (process_file ⟨.lf, false, true⟩ envNoChange).backup = none) :=
  ⟨⟨rfl, rfl, by decide, rfl, rfl, rfl, by decide, by decide⟩,
    c8_nochange_skip ⟨.lf, false, true⟩ envNoChange rfl rfl (by decide) rfl rfl rfl
      (by decide) (fun h => by cases h) (by decide)⟩

/-- C9: `is_binary_file` never raises — it always yields a boolean — and
whenever its body raises (size check or read fails), it returns `true`,
failing safe toward skipping the file. -/
theorem c9_is_binary_never_raises (env : BinEnv) :
    (∃ b : Bool, is_binary_file env = .ok b) ∧
    (∀ e : PyExn, is_binary_body env = .error e → is_binary_file env = .ok true) := by
  rcases hb : is_binary_body env with e | b
  · refine ⟨⟨true, ?_⟩, ?_⟩
    · cases e <;> simp [is_binary_file, hb, exnIsException]
    · intro e2 _
      cases e <;> simp [is_binary_file, hb, exnIsException]
  · refine ⟨⟨b, by simp [is_binary_file, hb]⟩, ?_⟩
    intro e he
    simp at he

theorem c9_witness :
    is_binary_body ⟨true, 0, "", false, []⟩ = .error .osError ∧
    is_binary_file ⟨true, 0, "", false, []⟩ = .ok true :=
  ⟨rfl, (c9_is_binary_never_raises ⟨true, 0, "", false, []⟩).2 .osError rfl⟩

/-- C4: the claim that every non-empty plain-ASCII file with a
non-deny-listed extension is classified as text is false: the magic-number
check includes the pure-ASCII prefix `BM` (and `GIF8`, `%PDF`), so ASCII
text starting with `BM` is classified binary. -/
theorem c4_counterexample :
    ([66, 77, 32, 104, 105] ≠ ([] : List Nat)) ∧
    (∀ b ∈ ([66, 77, 32, 104, 105] : List Nat), isAsciiText b = true) ∧
    binaryExtensions.contains ".txt" = false ∧
    is_binary_content ".txt" 5 [66, 77, 32, 104, 105] = true := by
  decide

/-- C4 (amended): a non-empty plain-ASCII file whose extension is not
deny-listed **and whose content does not start with one of the magic
signatures** is classified as text. -/
theorem c4_amended_ascii_not_binary (ext : String) (size : Nat) (data : List Nat)
    (hsz : size ≠ 0) (hne : data ≠ [])
    (hascii : ∀ b ∈ data, isAsciiText b = true)
    (hext : binaryExtensions.contains ext = false)
    (hmagic : magicSignatures.any (fun sig => sig.isPrefixOf (data.take 8192)) = false) :
    is_binary_content ext size data = false := by
  have hsub : ∀ b ∈ data.take 8192, isAsciiText b = true := fun b hb =>
    hascii b (List.take_subset _ _ hb)
  have htk : data.take 8192 ≠ [] := by
    intro hcon
    rcases List.take_eq_nil_iff.1 hcon with h | h
    · exact absurd h (by decide)
    · exact hne h
  have hz : (0 : Nat) ∉ data.take 8192 := by
    intro hmem
    have := hsub 0 hmem
    simp [isAsciiText] at this
  have hfil : (data.take 8192).filter (fun b => isTextByte b = false) = [] := by
    rw [List.filter_eq_nil_iff]
    intro b hb
    have hA := hsub b hb
    simp only [isAsciiText, Bool.or_eq_true, decide_eq_true_eq, Bool.and_eq_true] at hA
    simp only [decide_eq_true_eq, Bool.not_eq_false]
    simp only [isTextByte, Bool.or_eq_true, decide_eq_true_eq, Bool.and_eq_true]
    omega
  unfold is_binary_content classifyChunk
  rw [if_neg hsz,
    if_neg (show ¬binaryExtensions.contains ext = true by
      rw [hext]; exact Bool.false_ne_true),
    if_neg (show ¬(data.take 8192).isEmpty = true by
      simp only [List.isEmpty_iff]; exact htk),
    if_neg (show ¬(data.take 8192).contains 0 = true by
      simp only [List.contains, List.elem_eq_mem, decide_eq_true_eq]; exact hz),
    if_neg (show ¬(magicSignatures.any fun sig => sig.isPrefixOf (data.take 8192)) = true by
      rw [hmagic]; exact Bool.false_ne_true),
    hfil]
  simp [ratioExceeds]

theorem c4_witness :
    ((2 : Nat) ≠ 0 ∧ ([104, 105] : List Nat) ≠ [] ∧
      (∀ b ∈ ([104, 105] : List Nat), isAsciiText b = true) ∧
      binaryExtensions.contains ".txt" = false ∧
      magicSignatures.any (fun sig => sig.isPrefixOf (([104, 105] : List Nat).take 8192)) =
        false) ∧
    is_binary_content ".txt" 2 [104, 105] = false :=
  ⟨⟨by decide, by decide, by decide, by decide, by decide⟩,
    c4_amended_ascii_not_binary ".txt" 2 [104, 105] (by decide) (by decide) (by decide)
      (by decide) (by decide)⟩

/-- C3: for any file list, with the code's batching into chunks of 1000 and
results collected within each batch in an arbitrary completion order,
`processed + skipped + errors` equals the number of submitted files. -/
theorem c3_counters_account_for_every_file {α : Type} (f : α → WorkerRes) (files : List α)
    (rss : List (List WorkerRes))
    (hperm : List.Forall₂ (fun rs batch => rs.Perm (batch.map f)) rss (chunkBy1000 files)) :
    (totalTally rss).1 + (totalTally rss).2.1 + (totalTally rss).2.2 = files.length := by
  rw [totalTally_perm f rss _ hperm]
  exact chunkAux_length_sum files.length files le_rfl

theorem c3_witness :
    List.Forall₂ (fun rs batch => rs.Perm (batch.map (fun _ : Nat => WorkerRes.ret true)))
      [[WorkerRes.ret true, WorkerRes.ret true, WorkerRes.ret true]]
      (chunkBy1000 [0, 1, 2]) ∧
    (totalTally [[WorkerRes.ret true, WorkerRes.ret true, WorkerRes.ret true]]).1 +
        (totalTally [[WorkerRes.ret true, WorkerRes.ret true, WorkerRes.ret true]]).2.1 +
        (totalTally [[WorkerRes.ret true, WorkerRes.ret true, WorkerRes.ret true]]).2.2 =
      ([0, 1, 2] : List Nat).length :=
  ⟨List.Forall₂.cons (by decide) List.Forall₂.nil,
    c3_counters_account_for_every_file (fun _ : Nat => WorkerRes.ret true) [0, 1, 2]
      [[WorkerRes.ret true, WorkerRes.ret true, WorkerRes.ret true]]
      (List.Forall₂.cons (by decide) List.Forall₂.nil)⟩

/-- C10: since `process_file` only ever returns a boolean, every failure
outcome is tallied into `skipped` with the other `False` returns, and the
`errors` counter (which only counts raising workers) stays zero. -/
theorem c10_failures_count_as_skips (cfg : Cfg) (envs : List Env) :
    ((tally (envs.map (workerOutcome cfg))).2.2 = 0 ∧
      (tally (envs.map (workerOutcome cfg))).1 =
        (envs.filter (fun e => decide ((process_file cfg e).ret = Except.ok true))).length ∧
      (tally (envs.map (workerOutcome cfg))).2.1 =
        (envs.filter (fun e => decide ((process_file cfg e).ret = Except.ok false))).length) ∧
    (∀ e : Env, e.present = false → (process_file cfg e).ret = Except.ok false) := by
  constructor
  · induction envs with
    | nil => exact ⟨rfl, rfl, rfl⟩
    | cons e rest ih =>
      obtain ⟨ih1, ih2, ih3⟩ := ih
      rcases process_file_total cfg e with h | h
      · have hw : workerOutcome cfg e = .ret true := by
          simp [workerOutcome, h]
        simp [tally, hw, List.filter_cons, h, ih1, ih2, ih3]
      · have hw : workerOutcome cfg e = .ret false := by
          simp [workerOutcome, h]
        simp [tally, hw, List.filter_cons, h, ih1, ih2, ih3]
  · intro e he
    unfold process_file processFileBody
    rw [if_pos he]
    rfl

theorem c10_witness :
    envNotFound.present = false ∧
    (process_file ⟨.lf, false, false⟩ envNotFound).ret = Except.ok false :=
  ⟨rfl, (c10_failures_count_as_skips ⟨.lf, false, false⟩ []).2 envNotFound rfl⟩

end LineForge
